import Mathlib

/-!
Verification of the JSON-reader room-assignment program.

The Python source consists of a data model (`models.py`: `Room` and
`Student` typed dictionaries), an assignment engine
(`assigner.py`: `RoomAssigner.assign_students`), file writers
(`writers.py`: `JSONWriter`, `XMLWriter`), a reader (`readers.py`:
`JSONReader`), and an orchestrating CLI (`cli.py` / `main.py`).

This file gives a shallow embedding of those parts in Lean and proves the
specification's testable properties against them.  Python's in-place list
mutation is embedded as explicit state passing: `assign_students` takes the
room list and returns either the updated list (`Except.ok`) or, when a
student's room reference raises `IndexError`, the partially updated list at
the moment of failure (`Except.error`).
-/

/-- `models.py`: `Room` is a typed dictionary with `id : int`, `name : str`
and an optional `students : list[str]` key (`NotRequired`); `students = none`
embeds the absence of the `"students"` key. -/
structure Room where
  id : Int
  name : String
  students : Option (List String)
deriving Repr, DecidableEq

/-- `models.py`: `Student` is a typed dictionary with `id : int`,
`name : str` and `room : int`. -/
structure Student where
  id : Int
  name : String
  room : Int
deriving Repr, DecidableEq

/-- Python list subscript semantics: `xs[i]` for a list of length `len`
resolves a non-negative `i < len` to position `i`, a negative `i` with
`-len ≤ i` to position `len + i`, and raises `IndexError` (here `none`)
otherwise.  Used by `rooms[room_index]` in `assigner.py` line 23. -/
def pyListIndex (len : Nat) (i : Int) : Option Nat :=
  if 0 ≤ i then
    if i < (len : Int) then some i.toNat else none
  else
    if -(len : Int) ≤ i then some ((len : Int) + i).toNat else none

/-- The loop body of `assign_students` for one student resolved to a room:
`if "students" not in rooms[room_index]: rooms[room_index]["students"] = []`
followed by `rooms[room_index]["students"].append(name)`. -/
def addStudentName (room : Room) (name : String) : Room :=
  match room.students with
  | none => { room with students := some [name] }
  | some l => { room with students := some (l ++ [name]) }

/-- In-place update of the list element at position `k` (Python
`rooms[room_index]["students"] = ...` mutates the element in place). -/
def modifyIdx : List Room → Nat → (Room → Room) → List Room
  | [], _, _ => []
  | r :: rs, 0, f => f r :: rs
  | r :: rs, k + 1, f => r :: modifyIdx rs k f

/-- `assigner.py` lines 20–26, `RoomAssigner.assign_students`: iterate the
students in order; for each, resolve `rooms[student["room"]]`, initialise its
`"students"` list if absent, and append the student's name.  An unresolvable
subscript raises `IndexError`; the `Except.error` value carries the room list
as already mutated when the exception is raised. -/
def assignStudents : List Room → List Student → Except (List Room) (List Room)
  | rooms, [] => .ok rooms
  | rooms, s :: rest =>
    match pyListIndex rooms.length s.room with
    | none => .error rooms
    | some k => assignStudents (modifyIdx rooms k (fun r => addStudentName r s.name)) rest

/-- Scenario A rooms: `[{id:0,name:"Room A"},{id:1,name:"Room B"}]`. -/
def scenarioARooms : List Room :=
  [⟨0, "Room A", none⟩, ⟨1, "Room B", none⟩]

/-- Scenario A students: Alice→0, Bob→1, Carol→0. -/
def scenarioAStudents : List Student :=
  [⟨0, "Alice", 0⟩, ⟨1, "Bob", 1⟩, ⟨2, "Carol", 0⟩]

/-- The assigned rooms of Scenario A (the `Except.ok` payload of
`assign_students` there). -/
def scenarioAAssigned : List Room :=
  [⟨0, "Room A", some ["Alice", "Carol"]⟩, ⟨1, "Room B", some ["Bob"]⟩]

/-- The names, in input order, of the students of `students` whose room
reference resolves (under Python subscripting on a list of length `len`) to
position `p`. -/
def namesFor (len : Nat) (students : List Student) (p : Nat) : List String :=
  (students.filter fun s => pyListIndex len s.room == some p).map Student.name

/-- Appending a batch of names to a room the way the `assign_students` loop
does: an empty batch leaves the room untouched (in particular the
`"students"` key is not created), a non-empty batch materialises the key if
needed and appends. -/
def pushNames (room : Room) (names : List String) : Room :=
  match names with
  | [] => room
  | _ :: _ => { room with students := some (room.students.getD [] ++ names) }

/-! ### The orchestrating CLI (`cli.py`, `main.py`) -/

/-- The two Sink Writers registered in the writer map of `cli.py`
lines 20–23 and `main.py` lines 212–215. -/
inductive SinkWriter where
  | json
  | xml
deriving Repr, DecidableEq

/-- `writer_map.get(extension)`: `".json"` and `".xml"` are the only keys. -/
def writerMap (ext : String) : Option SinkWriter :=
  if ext = ".json" then some .json
  else if ext = ".xml" then some .xml
  else none

/-- The final path component (`pathlib.PurePath.name`), for `/`-separated
paths without trailing separators. -/
def lastComponent (s : List Char) : List Char :=
  s.foldl (fun acc c => if c = '/' then [] else acc ++ [c]) []

/-- `str.rfind('.')` on a character list: the greatest index holding `'.'`. -/
def rfindDot : List Char → Option Nat
  | [] => none
  | c :: rest =>
    match rfindDot rest with
    | some i => some (i + 1)
    | none => if c = '.' then some 0 else none

/-- `pathlib.PurePath.suffix`: the final component from its last dot onward,
provided that dot is neither the first nor the last character; otherwise
the empty string. -/
def pySuffix (path : String) : String :=
  let name := lastComponent path.data
  match rfindDot name with
  | none => ""
  | some i => if 0 < i ∧ i < name.length - 1 then String.mk (name.drop i) else ""

/-- `str.lower()`, for the ASCII letters file extensions consist of. -/
def asciiLower (s : String) : String :=
  String.mk (s.data.map fun c =>
    if 'A' ≤ c ∧ c ≤ 'Z' then Char.ofNat (c.toNat + 32) else c)

/-- The observable file-system actions of one run, in order. -/
inductive Event where
  | readFile (path : String)
  | writeFile (path : String)
deriving Repr, DecidableEq

/-- The failures `main` surfaces: the `ValueError` for an unsupported output
extension, and the `IndexError` escaping `assign_students`. -/
inductive RunError where
  | unsupportedFormat (ext : String)
  | outOfRangeRef
deriving Repr, DecidableEq

/-- `processor.py` lines 23–35, `RoomAssignmentProcessor.assign_and_export`:
read the rooms file, read the students file, assign, then write the output
file.  `roomsData`/`studentsData` stand for the parsed contents the reader
returns; the event list records the I/O performed, in order. -/
def assignAndExport (writer : SinkWriter) (roomsFile studentsFile outputFile : String)
    (roomsData : List Room) (studentsData : List Student) :
    List Event × Option RunError :=
  match writer, assignStudents roomsData studentsData with
  | _, .error _ => ([.readFile roomsFile, .readFile studentsFile], some .outOfRangeRef)
  | _, .ok _ => ([.readFile roomsFile, .readFile studentsFile, .writeFile outputFile], none)

/-- `cli.py` lines 8–30 and `main.py` lines 204–222, `main`: compute
`extension = output_file.suffix.lower()`, look it up in the writer map, and
raise `ValueError` before constructing the processor when it is absent;
otherwise run `assign_and_export`. -/
def mainRun (roomsFile studentsFile outputFile : String)
    (roomsData : List Room) (studentsData : List Student) :
    List Event × Option RunError :=
  let extension := asciiLower (pySuffix outputFile)
  match writerMap extension with
  | none => ([], some (.unsupportedFormat extension))
  | some w => assignAndExport w roomsFile studentsFile outputFile roomsData studentsData

/-! ### The markup-tree writer (`writers.py` `XMLWriter`) -/

/-- A node of an `xml.etree.ElementTree` tree: tag, attributes in insertion
order, optional text, children. -/
structure XNode where
  tag : String
  attrs : List (String × String)
  text : Option String
  children : List XNode
deriving Repr

/-- `ElementTree`'s text-content escaping (`_escape_cdata`): `&`, `<`, `>`. -/
def escapeCdata (s : String) : String :=
  String.join (s.data.map fun c =>
    if c = '&' then "&amp;"
    else if c = '<' then "&lt;"
    else if c = '>' then "&gt;"
    else String.mk [c])

/-- `ElementTree`'s attribute-value escaping (`_escape_attrib`). -/
def escapeAttrib (s : String) : String :=
  String.join (s.data.map fun c =>
    if c = '&' then "&amp;"
    else if c = '<' then "&lt;"
    else if c = '>' then "&gt;"
    else if c = '"' then "&quot;"
    else if c = '\r' then "&#13;"
    else if c = '\n' then "&#10;"
    else if c = '\t' then "&#09;"
    else String.mk [c])

mutual

/-- `ElementTree` serialisation of one element, with the default
`short_empty_elements=True`: an element with falsy text and no children is
written `<tag />`. -/
def serializeXNode : XNode → String
  | ⟨tag, attrs, text, children⟩ =>
    let attrStr :=
      String.join (attrs.map fun kv => " " ++ kv.1 ++ "=\"" ++ escapeAttrib kv.2 ++ "\"")
    if text.getD "" = "" ∧ children.isEmpty then
      "<" ++ tag ++ attrStr ++ " />"
    else
      "<" ++ tag ++ attrStr ++ ">" ++ escapeCdata (text.getD "") ++
        serializeXNodes children ++ "</" ++ tag ++ ">"

/-- Serialisation of a list of sibling elements, in order. -/
def serializeXNodes : List XNode → String
  | [] => ""
  | x :: xs => serializeXNode x ++ serializeXNodes xs

end

/-- `writers.py` lines 50–56: the child elements of one `room` element, one
per key of the room dictionary in insertion order (`id`, `name`, then
`students` when that key is present), scalar values via `str(value)`. -/
def roomChildren (room : Room) : List XNode :=
  [⟨"id", [], some (toString room.id), []⟩, ⟨"name", [], some room.name, []⟩] ++
    match room.students with
    | none => []
    | some names =>
      [⟨"students", [], none, names.map fun n => ⟨"student", [], some n, []⟩⟩]

/-- `writers.py` line 49: the `room` element for the room at position `pos`
of the enumeration, carrying that positional index as its `id` attribute. -/
def roomElem (pos : Nat) (room : Room) : XNode :=
  ⟨"room", [("id", toString pos)], none, roomChildren room⟩

/-- `XMLWriter.build_tree` (`writers.py` lines 36–59): a root element named
`rooms` with one `room` child per input room, in `enumerate` order. -/
def buildTree (data : List Room) : XNode :=
  ⟨"rooms", [], none, data.enum.map fun pr => roomElem pr.1 pr.2⟩

/-- The document prolog `ElementTree.write` emits for `encoding="utf-8"`
with `xml_declaration=True`. -/
def xmlDecl : String := "<?xml version=\x271.0\x27 encoding=\x27utf-8\x27?>\n"

/-- `XMLWriter.write` (`writers.py` lines 61–70): the full text written to
the output file. -/
def xmlWriterOutput (data : List Room) : String :=
  xmlDecl ++ serializeXNode (buildTree data)

/-- `startsSeq needle hay`: `hay` begins with `needle`. -/
def startsSeq : List Char → List Char → Bool
  | [], _ => true
  | _ :: _, [] => false
  | c :: cs, d :: ds => c == d && startsSeq cs ds

/-- `findSeq needle hay`: `needle` occurs contiguously in `hay`. -/
def findSeq : List Char → List Char → Bool
  | needle, [] => startsSeq needle []
  | needle, d :: ds => startsSeq needle (d :: ds) || findSeq needle ds

/-- The literal fragment Scenario D requires the markup-tree output of
Scenario A's result to contain (note its final closing tags, verbatim from
the specification). -/
def scenarioDFragment : String :=
  "<rooms><room id=\"0\"><id>0</id><name>Room A</name><students><student>Alice</student><student>Carol</student></student></room>"

/-- The Scenario D fragment with the `students` container closed by a
matching `</students>` tag. -/
def scenarioDFragmentFixed : String :=
  "<rooms><room id=\"0\"><id>0</id><name>Room A</name><students><student>Alice</student><student>Carol</student></students></room>"

/-! ### The structured-record writer and reader (`writers.py` `JSONWriter`,
`readers.py` `JSONReader`)

`JSONWriter.write` is `json.dump(data, file, indent=4)` and
`JSONReader.read` is `json.load(file)`; both delegate to the standard
library, which is modelled here: a printer for the exact text `json.dump`
produces on a room list, and a strict JSON parser for `json.load`.  Numbers
are restricted to the integers the data model uses, and a `\u` escape
denoting a lone surrogate is rejected rather than kept (Python would keep
it; no dumped document contains one). -/

/-- A parsed JSON value as `json.load` returns it. -/
inductive Json where
  | jnull
  | jbool (b : Bool)
  | jint (n : Int)
  | jstr (s : String)
  | jarr (xs : List Json)
  | jobj (kvs : List (String × Json))
deriving Repr

/-- The dictionary view of a room that `json.dump` receives: keys in
insertion order — `id`, `name`, then `students` when that key is present. -/
def roomToJson (room : Room) : Json :=
  .jobj ([("id", .jint room.id), ("name", .jstr room.name)] ++
    match room.students with
    | none => []
    | some names => [("students", .jarr (names.map Json.jstr))])

/-- The document `json.dump` receives from `JSONWriter.write`: the array of
room dictionaries. -/
def roomsToJson (data : List Room) : Json :=
  .jarr (data.map roomToJson)

/-- Reading a parsed JSON array of strings back as a student-name list. -/
def jsonStrList : List Json → Option (List String)
  | [] => some []
  | .jstr s :: rest => (jsonStrList rest).map fun l => s :: l
  | _ => none

/-- Reading a parsed JSON object back as a room: the inverse dictionary
view of `roomToJson`. -/
def jsonToRoom : Json → Option Room
  | .jobj [("id", .jint i), ("name", .jstr n)] => some ⟨i, n, none⟩
  | .jobj [("id", .jint i), ("name", .jstr n), ("students", .jarr vs)] =>
      (jsonStrList vs).map fun names => ⟨i, n, some names⟩
  | _ => none

/-- Reading a parsed JSON array back as a room list. -/
def jsonRoomList : List Json → Option (List Room)
  | [] => some []
  | v :: rest =>
    match jsonToRoom v, jsonRoomList rest with
    | some r, some rs => some (r :: rs)
    | _, _ => none

/-- Reading a parsed JSON document back as a room list. -/
def jsonToRooms : Json → Option (List Room)
  | .jarr xs => jsonRoomList xs
  | _ => none

/-- The lowercase hexadecimal digit for `n < 16` (Python `'{0:04x}'`). -/
def hexDigit (n : Nat) : Char :=
  if n < 10 then Char.ofNat (48 + n) else Char.ofNat (87 + n)

/-- The four lowercase hex digits of `n < 0x10000`, most significant
first. -/
def hexDigits4 (n : Nat) : List Char :=
  [hexDigit (n / 4096 % 16), hexDigit (n / 256 % 16),
   hexDigit (n / 16 % 16), hexDigit (n % 16)]

/-- The escape `json.dump` (default `ensure_ascii=True`) applies to one
string character: `"` and `\` and the five named control characters get
two-character escapes, every other character outside printable ASCII gets a
`\uXXXX` escape (a surrogate pair for characters beyond the basic
plane), and printable ASCII stays literal. -/
def jsonEscapeChar (c : Char) : List Char :=
  if c = '"' then ['\\', '"']
  else if c = '\\' then ['\\', '\\']
  else if c = '\n' then ['\\', 'n']
  else if c = '\t' then ['\\', 't']
  else if c = '\r' then ['\\', 'r']
  else if c = '\x08' then ['\\', 'b']
  else if c = '\x0c' then ['\\', 'f']
  else if c.toNat < 0x20 ∨ 0x7E < c.toNat then
    if c.toNat < 0x10000 then '\\' :: 'u' :: hexDigits4 c.toNat
    else
      ('\\' :: 'u' :: hexDigits4 (0xD800 + (c.toNat - 0x10000) / 0x400)) ++
        ('\\' :: 'u' :: hexDigits4 (0xDC00 + (c.toNat - 0x10000) % 0x400))
  else [c]

/-- A JSON string literal: quote, escaped characters, quote. -/
def jsonEscapeString (s : String) : List Char :=
  '"' :: (List.flatten (s.data.map jsonEscapeChar) ++ ['"'])

/-- The decimal digits of `n`, most significant first (empty for `0`). -/
def natToDigits : Nat → List Char
  | 0 => []
  | n + 1 => natToDigits ((n + 1) / 10) ++ [Char.ofNat (48 + (n + 1) % 10)]
decreasing_by exact Nat.div_lt_self (Nat.succ_pos n) (by omega)

/-- Python `str` of a non-negative integer. -/
def natToChars (n : Nat) : List Char :=
  if n = 0 then ['0'] else natToDigits n

/-- Python `str` of an integer. -/
def intToChars (i : Int) : List Char :=
  if i < 0 then '-' :: natToChars i.natAbs else natToChars i.natAbs

/-- An indentation run of `n` spaces. -/
def jsonIndent (n : Nat) : List Char :=
  List.replicate n ' '

/-- Concatenation with a separator between consecutive items. -/
def joinSep (sep : List Char) : List (List Char) → List Char
  | [] => []
  | [x] => x
  | x :: y :: rest => x ++ sep ++ joinSep sep (y :: rest)

/-- `json.dump(..., indent=4)` text of a `students` name list nested two
levels deep: `[]` when empty, otherwise one name per line at indent 12 with
the closing bracket at indent 8. -/
def dumpNames (names : List String) : List Char :=
  match names with
  | [] => ['[', ']']
  | _ :: _ =>
    ['[', '\n'] ++
      joinSep [',', '\n'] (names.map fun n => jsonIndent 12 ++ jsonEscapeString n) ++
      '\n' :: (jsonIndent 8 ++ [']'])

/-- `json.dump(..., indent=4)` text of one room dictionary nested one level
deep: members at indent 8, closing brace at indent 4. -/
def dumpRoom (room : Room) : List Char :=
  '\x7b' :: '\n' ::
    (jsonIndent 8 ++ jsonEscapeString "id" ++ ':' :: ' ' :: intToChars room.id ++
      ',' :: '\n' ::
      (jsonIndent 8 ++ jsonEscapeString "name" ++ ':' :: ' ' :: jsonEscapeString room.name ++
        (match room.students with
         | none => []
         | some names =>
           ',' :: '\n' ::
             (jsonIndent 8 ++ jsonEscapeString "students" ++ ':' :: ' ' :: dumpNames names)) ++
        '\n' :: (jsonIndent 4 ++ ['\x7d'])))

/-- `json.dump(data, file, indent=4)` text of the whole room list: `[]` when
empty, otherwise one room per block at indent 4. -/
def dumpRoomsChars (data : List Room) : List Char :=
  match data with
  | [] => ['[', ']']
  | _ :: _ =>
    ['[', '\n'] ++
      joinSep [',', '\n'] (data.map fun r => jsonIndent 4 ++ dumpRoom r) ++
      ['\n', ']']

/-- `JSONWriter.write` (`writers.py` lines 21–29): the full text
`json.dump(data, file, indent=4)` writes to the output file. -/
def jsonWriterOutput (data : List Room) : String :=
  String.mk (dumpRoomsChars data)

/-- The JSON whitespace characters. -/
def isJsonWs (c : Char) : Bool :=
  c == ' ' || c == '\t' || c == '\n' || c == '\r'

/-- Skip leading JSON whitespace. -/
def skipWs : List Char → List Char
  | [] => []
  | c :: cs => if isJsonWs c then skipWs cs else c :: cs

/-- The value of one hexadecimal digit character. -/
def hexVal (c : Char) : Option Nat :=
  if '0' ≤ c ∧ c ≤ '9' then some (c.toNat - 48)
  else if 'a' ≤ c ∧ c ≤ 'f' then some (c.toNat - 87)
  else if 'A' ≤ c ∧ c ≤ 'F' then some (c.toNat - 55)
  else none

/-- The value of a four-hex-digit run. -/
def hex4Val (a b c d : Char) : Option Nat :=
  match hexVal a, hexVal b, hexVal c, hexVal d with
  | some x, some y, some z, some w => some (((x * 16 + y) * 16 + z) * 16 + w)
  | _, _, _, _ => none

/-- The character denoted by a two-character JSON escape. -/
def escChar : Char → Option Char
  | '"' => some '"'
  | '\\' => some '\\'
  | '/' => some '/'
  | 'b' => some '\x08'
  | 'f' => some '\x0c'
  | 'n' => some '\n'
  | 'r' => some '\r'
  | 't' => some '\t'
  | _ => none

/-- Decode a `\\u` escape, after its `\\u`: four hex digits, combined with
a following low-surrogate escape when they form a surrogate pair.  A lone
surrogate is rejected (Python would keep it as an unpaired code unit, which
no dumped document contains). -/
def unescapeU : List Char → Option (Char × List Char)
  | a :: b :: c :: d :: rest =>
    match hex4Val a b c d with
    | none => none
    | some n =>
      if 0xD800 ≤ n ∧ n ≤ 0xDBFF then
        match rest with
        | s1 :: s2 :: a2 :: b2 :: c2 :: d2 :: rest2 =>
          if s1 = '\\' ∧ s2 = 'u' then
            match hex4Val a2 b2 c2 d2 with
            | none => none
            | some m =>
              if 0xDC00 ≤ m ∧ m ≤ 0xDFFF then
                some (Char.ofNat (0x10000 + (n - 0xD800) * 0x400 + (m - 0xDC00)), rest2)
              else none
          else none
        | _ => none
      else if 0xDC00 ≤ n ∧ n ≤ 0xDFFF then none
      else some (Char.ofNat n, rest)
  | _ => none

/-- Decode one character at the head of a JSON string body: a two-character
escape, a `\\u` escape, or a literal character (strict mode: a raw control
character is an error, and the closing quote is not a character). -/
def unescapeHead : List Char → Option (Char × List Char)
  | [] => none
  | c :: rest =>
    if c = '"' then none
    else if c = '\\' then
      match rest with
      | [] => none
      | e :: rest2 =>
        if e = 'u' then unescapeU rest2 else (escChar e).map fun ec => (ec, rest2)
    else if c.toNat < 0x20 then none
    else some (c, rest)

/-- The body of a JSON string literal, after its opening quote: the decoded
characters and the input after the closing quote.  The fuel bounds the
number of decoded characters; decoding consumes at least one input character
per step, so `parseJsonString` supplies one more than the input length. -/
def parseStringBody : Nat → List Char → Option (List Char × List Char)
  | 0, _ => none
  | _ + 1, [] => none
  | fuel + 1, c :: rest =>
    if c = '"' then some ([], rest)
    else
      match unescapeHead (c :: rest) with
      | none => none
      | some (ch, rest2) => (parseStringBody fuel rest2).map fun pr => (ch :: pr.1, pr.2)

/-- A JSON string body with sufficient fuel. -/
def parseJsonString (l : List Char) : Option (List Char × List Char) :=
  parseStringBody (l.length + 1) l

/-- A decimal digit character. -/
def isDigitChar (c : Char) : Bool :=
  '0' ≤ c && c ≤ '9'

/-- Consume a run of decimal digits, accumulating their value. -/
def parseDigits : Nat → List Char → Nat × List Char
  | acc, [] => (acc, [])
  | acc, c :: cs =>
    if isDigitChar c then parseDigits (acc * 10 + (c.toNat - 48)) cs
    else (acc, c :: cs)

/-- A JSON number restricted to the integers the data model uses: an
optional minus sign followed by decimal digits. -/
def parseNumber : List Char → Option (Int × List Char)
  | [] => none
  | c :: cs =>
    if c = '-' then
      match cs with
      | [] => none
      | d :: ds =>
        if isDigitChar d then
          some (-((parseDigits (d.toNat - 48) ds).1 : Int), (parseDigits (d.toNat - 48) ds).2)
        else none
    else if isDigitChar c then
      some (((parseDigits (c.toNat - 48) cs).1 : Int), (parseDigits (c.toNat - 48) cs).2)
    else none

/-- Expect the given literal characters at the head of the input. -/
def dropLit : List Char → List Char → Option (List Char)
  | [], rest => some rest
  | _ :: _, [] => none
  | l :: ls, c :: rest => if c = l then dropLit ls rest else none

mutual

/-- One JSON value: whitespace, then a literal, string, number, array or
object.  The fuel argument bounds the recursion; `jsonLoads` supplies one
more than the input length, which every dumped document needs at most. -/
def parseValue : Nat → List Char → Option (Json × List Char)
  | 0, _ => none
  | fuel + 1, input =>
    match skipWs input with
    | [] => none
    | c :: rest =>
      if c = 'n' then (dropLit ['u', 'l', 'l'] rest).map fun r => (.jnull, r)
      else if c = 't' then (dropLit ['r', 'u', 'e'] rest).map fun r => (.jbool true, r)
      else if c = 'f' then (dropLit ['a', 'l', 's', 'e'] rest).map fun r => (.jbool false, r)
      else if c = '"' then
        (parseJsonString rest).map fun pr => (.jstr (String.mk pr.1), pr.2)
      else if c = '[' then
        match skipWs rest with
        | [] => none
        | c2 :: r2 => if c2 = ']' then some (.jarr [], r2) else parseElems fuel (c2 :: r2) []
      else if c = '\x7b' then
        match skipWs rest with
        | [] => none
        | c2 :: r2 =>
          if c2 = '\x7d' then some (.jobj [], r2) else parseMembers fuel (c2 :: r2) []
      else
        (parseNumber (c :: rest)).map fun pr => (.jint pr.1, pr.2)

/-- The elements of a non-empty JSON array, after its opening bracket. -/
def parseElems : Nat → List Char → List Json → Option (Json × List Char)
  | 0, _, _ => none
  | fuel + 1, input, acc =>
    match parseValue fuel input with
    | none => none
    | some (v, rest) =>
      match skipWs rest with
      | [] => none
      | c :: r =>
        if c = ',' then parseElems fuel r (acc ++ [v])
        else if c = ']' then some (.jarr (acc ++ [v]), r)
        else none

/-- The members of a non-empty JSON object, after its opening brace. -/
def parseMembers : Nat → List Char → List (String × Json) →
    Option (Json × List Char)
  | 0, _, _ => none
  | fuel + 1, input, acc =>
    match skipWs input with
    | [] => none
    | c :: rest =>
      if c = '"' then
        match parseJsonString rest with
        | none => none
        | some (k, r1) =>
          match skipWs r1 with
          | [] => none
          | c2 :: r2 =>
            if c2 = ':' then
              match parseValue fuel r2 with
              | none => none
              | some (v, r3) =>
                match skipWs r3 with
                | [] => none
                | c3 :: r4 =>
                  if c3 = ',' then parseMembers fuel r4 (acc ++ [(String.mk k, v)])
                  else if c3 = '\x7d' then some (.jobj (acc ++ [(String.mk k, v)]), r4)
                  else none
            else none
      else none

end

/-- `JSONReader.read` (`readers.py` lines 23–33): `json.load` of the file
text — one JSON value, with nothing but whitespace after it. -/
def jsonLoads (s : String) : Option Json :=
  match parseValue (s.data.length + 1) s.data with
  | some (v, rest) => if skipWs rest = [] then some v else none
  | none => none

/-- Parser fuel sufficient for one dumped room object. -/
def roomFuel (room : Room) : Nat :=
  6 + match room.students with
      | none => 0
      | some names => names.length + 3

/-- Parser fuel sufficient for the elements of a dumped room array. -/
def roomsFuel (data : List Room) : Nat :=
  data.foldr (fun r acc => roomFuel r + 1 + acc) 0

/-! ### Properties of the assignment engine -/

theorem modifyIdx_length (l : List Room) (k : Nat) (f : Room → Room) :
    (modifyIdx l k f).length = l.length := by
  induction l generalizing k with
  | nil => rfl
  | cons r rs ih => cases k <;> simp [modifyIdx, ih]

theorem modifyIdx_get (l : List Room) (k : Nat) (f : Room → Room) (p : Nat)
    (hp : p < l.length) (hp' : p < (modifyIdx l k f).length) :
    (modifyIdx l k f).get ⟨p, hp'⟩ =
      if p = k then f (l.get ⟨p, hp⟩) else l.get ⟨p, hp⟩ := by
  induction l generalizing k p with
  | nil => simp at hp
  | cons r rs ih =>
    cases k with
    | zero => cases p <;> simp [modifyIdx]
    | succ k =>
      cases p with
      | zero => simp [modifyIdx]
      | succ p => simpa [modifyIdx] using ih k p (by simpa using hp) (by simpa [modifyIdx] using hp')

theorem namesFor_cons (len : Nat) (s : Student) (rest : List Student) (p : Nat) :
    namesFor len (s :: rest) p =
      if pyListIndex len s.room == some p then s.name :: namesFor len rest p
      else namesFor len rest p := by
  by_cases h : pyListIndex len s.room == some p <;>
    simp [namesFor, List.filter_cons, h]

theorem pushNames_addStudentName (r : Room) (n : String) (ns : List String) :
    pushNames (addStudentName r n) ns = pushNames r (n :: ns) := by
  obtain ⟨i, nm, st⟩ := r
  cases st <;> cases ns <;> simp [pushNames, addStudentName]

theorem pushNames_id (r : Room) (ns : List String) : (pushNames r ns).id = r.id := by
  cases ns <;> rfl

theorem pushNames_name (r : Room) (ns : List String) : (pushNames r ns).name = r.name := by
  cases ns <;> rfl

theorem pushNames_students_of_ne_nil (r : Room) (ns : List String) (h : ns ≠ []) :
    (pushNames r ns).students = some (r.students.getD [] ++ ns) := by
  cases ns with
  | nil => exact absurd rfl h
  | cons a l => rfl

/-- Master characterisation: when every student's room reference resolves,
`assign_students` succeeds and each output room is the corresponding input
room with the names routed to its position appended. -/
theorem assignStudents_ok_spec (students : List Student) : ∀ rooms : List Room,
    (∀ s ∈ students, (pyListIndex rooms.length s.room).isSome) →
    ∃ res, assignStudents rooms students = .ok res ∧ res.length = rooms.length ∧
      ∀ p (hp : p < rooms.length) (hp' : p < res.length),
        res.get ⟨p, hp'⟩ =
          pushNames (rooms.get ⟨p, hp⟩) (namesFor rooms.length students p) := by
  induction students with
  | nil =>
    intro rooms _
    refine ⟨rooms, rfl, rfl, ?_⟩
    intro p hp hp'
    simp [namesFor, pushNames]
  | cons s rest ih =>
    intro rooms hvalid
    obtain ⟨k, hk⟩ : ∃ k, pyListIndex rooms.length s.room = some k := by
      have := hvalid s (by simp)
      exact Option.isSome_iff_exists.mp this
    have hstep : assignStudents rooms (s :: rest) =
        assignStudents (modifyIdx rooms k (fun r => addStudentName r s.name)) rest := by
      simp [assignStudents, hk]
    set rooms' := modifyIdx rooms k (fun r => addStudentName r s.name) with hrooms'
    have hlen' : rooms'.length = rooms.length := modifyIdx_length rooms k _
    have hvalid' : ∀ t ∈ rest, (pyListIndex rooms'.length t.room).isSome := by
      intro t ht
      rw [hlen']
      exact hvalid t (by simp [ht])
    obtain ⟨res, hres, hreslen, hget⟩ := ih rooms' hvalid'
    refine ⟨res, hstep.trans hres, by omega, ?_⟩
    intro p hp hp'
    have hp2 : p < rooms'.length := by omega
    rw [hget p hp2 hp', modifyIdx_get rooms k _ p hp hp2, hlen', namesFor_cons]
    by_cases hpk : p = k
    · subst hpk
      simp [hk, pushNames_addStudentName]
    · have : (pyListIndex rooms.length s.room == some p) = false := by
        simp [hk]
        omega
      simp [hpk, this]

/-- `assign_students` raises `IndexError` exactly when some student's room
reference fails Python subscript resolution. -/
theorem assignStudents_error_iff (students : List Student) : ∀ rooms : List Room,
    (∃ e, assignStudents rooms students = .error e) ↔
      ∃ s ∈ students, pyListIndex rooms.length s.room = none := by
  induction students with
  | nil => intro rooms; simp [assignStudents]
  | cons s rest ih =>
    intro rooms
    cases h : pyListIndex rooms.length s.room with
    | none =>
      constructor
      · intro _; exact ⟨s, by simp, h⟩
      · intro _; exact ⟨rooms, by simp [assignStudents, h]⟩
    | some k =>
      have hstep : assignStudents rooms (s :: rest) =
          assignStudents (modifyIdx rooms k (fun r => addStudentName r s.name)) rest := by
        simp [assignStudents, h]
      rw [hstep, ih, modifyIdx_length]
      simp only [List.mem_cons]
      constructor
      · rintro ⟨t, ht, hnone⟩; exact ⟨t, Or.inr ht, hnone⟩
      · rintro ⟨t, ht | ht, hnone⟩
        · subst ht; rw [h] at hnone; exact absurd hnone (by simp)
        · exact ⟨t, ht, hnone⟩

theorem assignStudents_append (pre : List Student) : ∀ (rooms : List Room) (more : List Student),
    assignStudents rooms (pre ++ more) =
      (assignStudents rooms pre).bind (fun r => assignStudents r more) := by
  induction pre with
  | nil => intro rooms more; simp [assignStudents, Except.bind]
  | cons s rest ih =>
    intro rooms more
    cases h : pyListIndex rooms.length s.room with
    | none => simp [assignStudents, h, Except.bind]
    | some k => simp [assignStudents, h, ih]

theorem pyListIndex_eq_none_iff (len : Nat) (i : Int) :
    pyListIndex len i = none ↔ (len : Int) ≤ i ∨ i < -(len : Int) := by
  unfold pyListIndex
  split_ifs <;> simp <;> omega

theorem pyListIndex_lt (len : Nat) (i : Int) (k : Nat) (h : pyListIndex len i = some k) :
    k < len := by
  unfold pyListIndex at h
  split_ifs at h <;> simp at h <;> omega

/-! ### Claim theorems: assignment engine -/

/-- C8: `assign_students` applied with an empty student list returns any room
list unchanged — no name is duplicated, removed or reordered and no
`students` key is created. -/
theorem C8_assign_empty_identity (rooms : List Room) :
    assignStudents rooms [] = .ok rooms := rfl

/-- C10: `assign_students` fails exactly when some student's room reference
`r` has `r ≥ len(rooms)` or `r < -len(rooms)`; a negative reference `r` with
`-len(rooms) ≤ r ≤ -1` does not fail but appends the student's name to the
room at position `len(rooms) + r`. -/
theorem C10_python_index_semantics :
    (∀ (rooms : List Room) (students : List Student),
      (∃ e, assignStudents rooms students = .error e) ↔
        ∃ s ∈ students, (rooms.length : Int) ≤ s.room ∨ s.room < -(rooms.length : Int))
    ∧ (∀ (rooms : List Room) (st : Student),
        -(rooms.length : Int) ≤ st.room → st.room < 0 →
        assignStudents rooms [st] =
          .ok (modifyIdx rooms ((rooms.length : Int) + st.room).toNat
            (fun r => addStudentName r st.name))) := by
  constructor
  · intro rooms students
    rw [assignStudents_error_iff]
    simp only [pyListIndex_eq_none_iff]
  · intro rooms st h1 h2
    have hidx : pyListIndex rooms.length st.room =
        some ((rooms.length : Int) + st.room).toNat := by
      unfold pyListIndex
      rw [if_neg (by omega), if_pos (by omega)]
    simp [assignStudents, hidx]

/-- C10 witness: with Scenario A's two rooms, a student with room `-1` is
appended to the room at position `2 + (-1) = 1`. -/
theorem C10_witness :
    assignStudents scenarioARooms [⟨3, "Dana", -1⟩] =
      .ok (modifyIdx scenarioARooms (((scenarioARooms.length : Int) + (-1)).toNat)
        (fun r => addStudentName r "Dana")) :=
  C10_python_index_semantics.2 scenarioARooms ⟨3, "Dana", -1⟩ (by decide) (by decide)

/-- C2 counterexample: a student whose room reference `-1` violates
`0 ≤ room < len(rooms)`, yet `assign_students` succeeds on it (the name lands
in the last room via Python negative indexing). -/
theorem C2_counterexample :
    (¬ (0 ≤ (-1 : Int) ∧ (-1 : Int) < (scenarioARooms.length : Int)))
    ∧ assignStudents scenarioARooms [⟨3, "Dana", -1⟩] =
        .ok [⟨0, "Room A", none⟩, ⟨1, "Room B", some ["Dana"]⟩] :=
  ⟨by decide, rfl⟩

/-- C2 (amended): `assign_students` fails when some student's room reference
`r` falls outside Python subscript range, i.e. `r ≥ len(rooms)` or
`r < -len(rooms)`; in particular a reference of `5` against a 2-room list
fails. -/
theorem C2_out_of_range_fails (rooms : List Room) (students : List Student)
    (h : ∃ s ∈ students, (rooms.length : Int) ≤ s.room ∨ s.room < -(rooms.length : Int)) :
    ∃ e, assignStudents rooms students = .error e := by
  rw [assignStudents_error_iff]
  simpa only [pyListIndex_eq_none_iff] using h

/-- C2 witness: Scenario B — a student with room `5` against the 2-room list
makes `assign_students` fail. -/
theorem C2_witness :
    (∃ s ∈ [(⟨9, "Zed", 5⟩ : Student)],
      (scenarioARooms.length : Int) ≤ s.room ∨ s.room < -(scenarioARooms.length : Int))
    ∧ ∃ e, assignStudents scenarioARooms [⟨9, "Zed", 5⟩] = .error e :=
  ⟨by decide, C2_out_of_range_fails scenarioARooms [⟨9, "Zed", 5⟩] (by decide)⟩

/-- C1 counterexample: with a room that already carries a `students` entry
`["X"]` and a single valid student Bob referencing it, the room's final
`students` list is `["X", "Bob"]`, not exactly the names of the students
whose room field is `0` (which are `["Bob"]`). -/
theorem C1_counterexample :
    (∀ s ∈ [(⟨0, "Bob", 0⟩ : Student)],
      0 ≤ s.room ∧ s.room < (([(⟨0, "A", some ["X"]⟩ : Room)]).length : Int))
    ∧ assignStudents [⟨0, "A", some ["X"]⟩] [⟨0, "Bob", 0⟩] =
        .ok [⟨0, "A", some ["X", "Bob"]⟩]
    ∧ (["X", "Bob"] : List String) ≠
        (([(⟨0, "Bob", 0⟩ : Student)].filter fun s => s.room == (0 : Int)).map
          Student.name) :=
  ⟨by decide, rfl, by decide⟩

/-- C1 (amended): for every pair (rooms, students) in which each student's
room field is a valid index into rooms **and no input room already carries a
`students` entry**, `assign_students` returns a room sequence of the same
length, and the `students` list of the room at position `p` (read as empty
when the key is absent) contains exactly the names of the students whose room
field equals `p`, in input order. -/
theorem C1_assign_groups_names (rooms : List Room) (students : List Student)
    (hvalid : ∀ s ∈ students, 0 ≤ s.room ∧ s.room < (rooms.length : Int))
    (hfresh : ∀ r ∈ rooms, r.students = none) :
    ∃ res, assignStudents rooms students = .ok res ∧ res.length = rooms.length ∧
      ∀ p (hp' : p < res.length),
        ((res.get ⟨p, hp'⟩).students).getD [] =
          (students.filter fun s => s.room == (p : Int)).map Student.name := by
  have hv : ∀ s ∈ students, (pyListIndex rooms.length s.room).isSome := by
    intro s hs
    obtain ⟨h0, h1⟩ := hvalid s hs
    unfold pyListIndex
    rw [if_pos h0, if_pos h1]
    rfl
  obtain ⟨res, hok, hlen, hget⟩ := assignStudents_ok_spec students rooms hv
  refine ⟨res, hok, hlen, ?_⟩
  intro p hp'
  have hp : p < rooms.length := by omega
  rw [hget p hp hp']
  have hnames : namesFor rooms.length students p =
      (students.filter fun s => s.room == (p : Int)).map Student.name := by
    unfold namesFor
    congr 1
    apply List.filter_congr
    intro s hs
    obtain ⟨h0, h1⟩ := hvalid s hs
    have hidx : pyListIndex rooms.length s.room = some s.room.toNat := by
      unfold pyListIndex
      rw [if_pos h0, if_pos h1]
    rw [hidx]
    by_cases h : s.room = (p : Int)
    · have h2 : s.room.toNat = p := by omega
      simp [h, h2]
    · have h2 : s.room.toNat ≠ p := by omega
      simp [h, h2]
  rw [hnames]
  have hfs : (rooms.get ⟨p, hp⟩).students = none :=
    hfresh (rooms.get ⟨p, hp⟩) (List.get_mem rooms p hp)
  cases hL : (students.filter fun s => s.room == (p : Int)).map Student.name with
  | nil =>
    rw [show pushNames (rooms.get ⟨p, hp⟩) [] = rooms.get ⟨p, hp⟩ from rfl, hfs]
    rfl
  | cons a l =>
    rw [pushNames_students_of_ne_nil _ _ (List.cons_ne_nil a l), hfs]
    rfl

/-- C1 witness: Scenario A — Alice and Carol end in Room A, Bob in Room B. -/
theorem C1_witness :
    ∃ res, assignStudents scenarioARooms scenarioAStudents = .ok res ∧
      res.length = scenarioARooms.length ∧
      ∀ p (hp' : p < res.length),
        ((res.get ⟨p, hp'⟩).students).getD [] =
          (scenarioAStudents.filter fun s => s.room == (p : Int)).map Student.name :=
  C1_assign_groups_names scenarioARooms scenarioAStudents (by decide) (by decide)

/-- C3: when `assign_students` fails on a student whose room reference is
unresolvable, the mutations made for the students already processed remain in
the room list the failure leaves behind: each of their names is present in
its referenced room's `students` list. -/
theorem C3_partial_mutation_persists (rooms : List Room) (pre : List Student)
    (bad : Student) (rest : List Student)
    (hpre : ∀ s ∈ pre, (pyListIndex rooms.length s.room).isSome)
    (hbad : pyListIndex rooms.length bad.room = none) :
    ∃ partialRooms, assignStudents rooms (pre ++ bad :: rest) = .error partialRooms ∧
      partialRooms.length = rooms.length ∧
      ∀ s ∈ pre, ∀ k, pyListIndex rooms.length s.room = some k →
        ∃ hk : k < partialRooms.length,
          s.name ∈ ((partialRooms.get ⟨k, hk⟩).students).getD [] := by
  obtain ⟨res, hok, hlen, hget⟩ := assignStudents_ok_spec pre rooms hpre
  refine ⟨res, ?_, hlen, ?_⟩
  · rw [assignStudents_append, hok]
    have hb : pyListIndex res.length bad.room = none := by rw [hlen]; exact hbad
    simp [Except.bind, assignStudents, hb]
  · intro s hs k hk
    have hklt : k < rooms.length := pyListIndex_lt _ _ _ hk
    refine ⟨by omega, ?_⟩
    rw [hget k hklt (by omega)]
    have hmem : s.name ∈ namesFor rooms.length pre k := by
      unfold namesFor
      exact List.mem_map.mpr ⟨s, List.mem_filter.mpr ⟨hs, by simp [hk]⟩, rfl⟩
    have hne : namesFor rooms.length pre k ≠ [] := by
      intro hnil
      rw [hnil] at hmem
      simp at hmem
    rw [pushNames_students_of_ne_nil _ _ hne]
    simp [hmem]

/-- C3 witness: Alice (room 0) is assigned, then Zed (room 5) fails; Alice's
name remains in Room A's `students` list of the partially mutated rooms. -/
theorem C3_witness :
    ∃ partialRooms,
      assignStudents scenarioARooms ([⟨0, "Alice", 0⟩] ++ ⟨9, "Zed", 5⟩ :: []) =
        .error partialRooms ∧
      partialRooms.length = scenarioARooms.length ∧
      ∀ s ∈ [(⟨0, "Alice", 0⟩ : Student)], ∀ k,
        pyListIndex scenarioARooms.length s.room = some k →
        ∃ hk : k < partialRooms.length,
          s.name ∈ ((partialRooms.get ⟨k, hk⟩).students).getD [] :=
  C3_partial_mutation_persists scenarioARooms [⟨0, "Alice", 0⟩] ⟨9, "Zed", 5⟩ []
    (by decide) (by decide)

/-- C6: on success, rooms keep their length, ids and names; a room referenced
by no student is returned entirely unchanged (its `students` entry is neither
added nor modified). -/
theorem C6_frame (rooms : List Room) (students : List Student) (res : List Room)
    (h : assignStudents rooms students = .ok res) :
    res.length = rooms.length
    ∧ (∀ p (hp : p < rooms.length) (hp' : p < res.length),
        (res.get ⟨p, hp'⟩).id = (rooms.get ⟨p, hp⟩).id
        ∧ (res.get ⟨p, hp'⟩).name = (rooms.get ⟨p, hp⟩).name)
    ∧ (∀ p (hp : p < rooms.length) (hp' : p < res.length),
        (∀ s ∈ students, pyListIndex rooms.length s.room ≠ some p) →
        res.get ⟨p, hp'⟩ = rooms.get ⟨p, hp⟩) := by
  have hv : ∀ s ∈ students, (pyListIndex rooms.length s.room).isSome := by
    intro s hs
    by_contra hns
    obtain ⟨e, he⟩ := (assignStudents_error_iff students rooms).mpr
      ⟨s, hs, Option.not_isSome_iff_eq_none.mp hns⟩
    rw [h] at he
    exact Except.noConfusion he
  obtain ⟨res', hok, hlen, hget⟩ := assignStudents_ok_spec students rooms hv
  rw [h] at hok
  obtain rfl : res = res' := by injection hok
  refine ⟨hlen, ?_, ?_⟩
  · intro p hp hp'
    rw [hget p hp hp']
    exact ⟨pushNames_id _ _, pushNames_name _ _⟩
  · intro p hp hp' hnone
    rw [hget p hp hp']
    have hfil : students.filter (fun s => pyListIndex rooms.length s.room == some p) = [] := by
      rw [List.filter_eq_nil_iff]
      intro a ha
      simp [hnone a ha]
    have : namesFor rooms.length students p = [] := by
      simp [namesFor, hfil]
    rw [this]
    rfl

/-- C6 witness: the frame conditions instantiated at Scenario A. -/
theorem C6_witness :
    scenarioAAssigned.length = scenarioARooms.length
    ∧ (∀ p (hp : p < scenarioARooms.length) (hp' : p < scenarioAAssigned.length),
        (scenarioAAssigned.get ⟨p, hp'⟩).id = (scenarioARooms.get ⟨p, hp⟩).id
        ∧ (scenarioAAssigned.get ⟨p, hp'⟩).name = (scenarioARooms.get ⟨p, hp⟩).name)
    ∧ (∀ p (hp : p < scenarioARooms.length) (hp' : p < scenarioAAssigned.length),
        (∀ s ∈ scenarioAStudents, pyListIndex scenarioARooms.length s.room ≠ some p) →
        scenarioAAssigned.get ⟨p, hp'⟩ = scenarioARooms.get ⟨p, hp⟩) :=
  C6_frame scenarioARooms scenarioAStudents scenarioAAssigned rfl

/-! ### Claim theorems: orchestrator and markup-tree writer -/

/-- C5: when the output destination's lowered extension is neither `.json`
nor `.xml`, the run fails with the unsupported-format error and performs no
I/O at all: the event trace is empty, so the rooms file and students file are
never read and no output file is written. -/
theorem C5_unsupported_format_before_io (roomsFile studentsFile outputFile : String)
    (roomsData : List Room) (studentsData : List Student)
    (h1 : asciiLower (pySuffix outputFile) ≠ ".json")
    (h2 : asciiLower (pySuffix outputFile) ≠ ".xml") :
    mainRun roomsFile studentsFile outputFile roomsData studentsData =
      ([], some (.unsupportedFormat (asciiLower (pySuffix outputFile)))) := by
  unfold mainRun
  have hmap : writerMap (asciiLower (pySuffix outputFile)) = none := by
    unfold writerMap
    rw [if_neg h1, if_neg h2]
  simp [hmap]

/-- C5 witness: Scenario C — destination `out.txt` fails with the
unsupported-format error on extension `.txt`, with an empty I/O trace. -/
theorem C5_witness :
    (asciiLower (pySuffix "out.txt") ≠ ".json" ∧ asciiLower (pySuffix "out.txt") ≠ ".xml")
    ∧ mainRun "rooms.json" "students.json" "out.txt" scenarioARooms scenarioAStudents =
        ([], some (.unsupportedFormat (asciiLower (pySuffix "out.txt")))) :=
  ⟨⟨by decide, by decide⟩,
    C5_unsupported_format_before_io "rooms.json" "students.json" "out.txt"
      scenarioARooms scenarioAStudents (by decide) (by decide)⟩

set_option maxRecDepth 100000 in
/-- C4 counterexample: the Scenario D fragment, taken verbatim from the
specification (its `students` container is closed by a stray `</student>`
tag), does not occur in the serialized markup-tree output of Scenario A's
result. -/
theorem C4_counterexample :
    findSeq scenarioDFragment.data (xmlWriterOutput scenarioAAssigned).data = false := by
  decide

set_option maxRecDepth 100000 in
/-- C4 (amended): `build_tree` produces a root element named `rooms` with one
`room` child per input room in order; each `room` child's sole attribute is
`id` set to the room's 0-based position (not the record's `id` field, which
appears among the child elements via `roomChildren`: an `id` text element, a
`name` text element, and — when the `students` key is present — a `students`
element with one `student` child per name in order).  The serialized output
for Scenario A's result contains the Scenario D fragment once its final
closing tag is corrected to `</students>`. -/
theorem C4_markup_tree_structure :
    (∀ data : List Room,
      (buildTree data).tag = "rooms"
      ∧ (buildTree data).attrs = []
      ∧ (buildTree data).children.length = data.length
      ∧ ∀ p (hp : p < data.length) (hp' : p < (buildTree data).children.length),
          ((buildTree data).children.get ⟨p, hp'⟩).tag = "room"
          ∧ ((buildTree data).children.get ⟨p, hp'⟩).attrs = [("id", toString p)]
          ∧ ((buildTree data).children.get ⟨p, hp'⟩).children =
              roomChildren (data.get ⟨p, hp⟩))
    ∧ findSeq scenarioDFragmentFixed.data (xmlWriterOutput scenarioAAssigned).data = true := by
  constructor
  · intro data
    refine ⟨rfl, rfl, by simp [buildTree], ?_⟩
    intro p hp hp'
    have : (buildTree data).children.get ⟨p, hp'⟩ = roomElem p (data.get ⟨p, hp⟩) := by
      simp [buildTree, roomElem, List.get_eq_getElem, List.getElem_enum]
    rw [this]
    exact ⟨rfl, rfl, rfl⟩
  · decide

/-- C4 witness: the structural half instantiated at Scenario A's result,
position 1: the attribute is the positional index `"1"`. -/
theorem C4_witness :
    ((buildTree scenarioAAssigned).children.get ⟨1, by decide⟩).attrs =
      [("id", toString 1)] :=
  (C4_markup_tree_structure.1 scenarioAAssigned).2.2.2 1 (by decide) (by decide) |>.2.1

/-! ### Round trip of the structured-record encoding: string escapes -/

theorem char_valid_nat (c : Char) :
    c.toNat < 0xD800 ∨ (0xDFFF < c.toNat ∧ c.toNat < 0x110000) := by
  rcases c.valid with h | ⟨h1, h2⟩
  · left
    simpa [Char.toNat, UInt32.lt_def, BitVec.lt_def] using h
  · right
    constructor
    · simpa [Char.toNat, UInt32.lt_def, BitVec.lt_def] using h1
    · simpa [Char.toNat, UInt32.lt_def, BitVec.lt_def] using h2

theorem hexVal_hexDigit (d : Nat) (h : d < 16) : hexVal (hexDigit d) = some d := by
  interval_cases d <;> decide

theorem hex4Val_encode (n : Nat) (h : n < 0x10000) :
    hex4Val (hexDigit (n / 4096 % 16)) (hexDigit (n / 256 % 16))
      (hexDigit (n / 16 % 16)) (hexDigit (n % 16)) = some n := by
  unfold hex4Val
  rw [hexVal_hexDigit _ (by omega), hexVal_hexDigit _ (by omega),
    hexVal_hexDigit _ (by omega), hexVal_hexDigit _ (by omega)]
  show some (((n / 4096 % 16 * 16 + n / 256 % 16) * 16 + n / 16 % 16) * 16 + n % 16) = some n
  have : ((n / 4096 % 16 * 16 + n / 256 % 16) * 16 + n / 16 % 16) * 16 + n % 16 = n := by
    omega
  rw [this]

theorem unescapeU_encode_bmp (n : Nat) (rest : List Char) (h : n < 0x10000)
    (h1 : ¬ (0xD800 ≤ n ∧ n ≤ 0xDBFF)) (h2 : ¬ (0xDC00 ≤ n ∧ n ≤ 0xDFFF)) :
    unescapeU (hexDigits4 n ++ rest) = some (Char.ofNat n, rest) := by
  simp only [hexDigits4, List.cons_append, List.nil_append]
  simp [unescapeU, hex4Val_encode n h, h1, h2]

theorem unescapeU_encode_pair (n m : Nat) (rest : List Char)
    (hn : 0xD800 ≤ n ∧ n ≤ 0xDBFF) (hm : 0xDC00 ≤ m ∧ m ≤ 0xDFFF) :
    unescapeU (hexDigits4 n ++ '\\' :: 'u' :: (hexDigits4 m ++ rest)) =
      some (Char.ofNat (0x10000 + (n - 0xD800) * 0x400 + (m - 0xDC00)), rest) := by
  simp only [hexDigits4, List.cons_append, List.nil_append]
  simp [unescapeU, hex4Val_encode n (by omega), hex4Val_encode m (by omega), hn, hm]

theorem unescapeHead_encode (c : Char) (rest : List Char) :
    unescapeHead (jsonEscapeChar c ++ rest) = some (c, rest) := by
  by_cases h1 : c = '"'
  · subst h1; simp [jsonEscapeChar, unescapeHead, escChar]
  by_cases h2 : c = '\\'
  · subst h2; simp [jsonEscapeChar, unescapeHead, escChar]
  by_cases h3 : c = '\n'
  · subst h3; simp [jsonEscapeChar, unescapeHead, escChar]
  by_cases h4 : c = '\t'
  · subst h4; simp [jsonEscapeChar, unescapeHead, escChar]
  by_cases h5 : c = '\r'
  · subst h5; simp [jsonEscapeChar, unescapeHead, escChar]
  by_cases h6 : c = '\x08'
  · subst h6; simp [jsonEscapeChar, unescapeHead, escChar]
  by_cases h7 : c = '\x0c'
  · subst h7; simp [jsonEscapeChar, unescapeHead, escChar]
  by_cases h8 : c.toNat < 0x20 ∨ 0x7E < c.toNat
  · have hval := char_valid_nat c
    by_cases h9 : c.toNat < 0x10000
    · have hesc : jsonEscapeChar c = '\\' :: 'u' :: hexDigits4 c.toNat := by
        simp [jsonEscapeChar, h1, h2, h3, h4, h5, h6, h7, h8, h9]
      rw [hesc]
      simp only [List.cons_append]
      rw [show unescapeHead ('\\' :: 'u' :: (hexDigits4 c.toNat ++ rest)) =
          unescapeU (hexDigits4 c.toNat ++ rest) from by simp [unescapeHead]]
      rw [unescapeU_encode_bmp c.toNat rest h9 (by omega) (by omega), Char.ofNat_toNat]
    · have hesc : jsonEscapeChar c =
          ('\\' :: 'u' :: hexDigits4 (0xD800 + (c.toNat - 0x10000) / 0x400)) ++
            ('\\' :: 'u' :: hexDigits4 (0xDC00 + (c.toNat - 0x10000) % 0x400)) := by
        simp [jsonEscapeChar, h1, h2, h3, h4, h5, h6, h7, h8, h9]
      rw [hesc]
      simp only [List.cons_append, List.append_assoc]
      rw [show unescapeHead ('\\' :: 'u' :: (hexDigits4 (0xD800 + (c.toNat - 0x10000) / 0x400) ++
          ('\\' :: 'u' :: (hexDigits4 (0xDC00 + (c.toNat - 0x10000) % 0x400) ++ rest)))) =
          unescapeU (hexDigits4 (0xD800 + (c.toNat - 0x10000) / 0x400) ++
            ('\\' :: 'u' :: (hexDigits4 (0xDC00 + (c.toNat - 0x10000) % 0x400) ++ rest)))
          from by simp [unescapeHead]]
      rw [unescapeU_encode_pair _ _ rest (by omega) (by omega)]
      have hcomb : 0x10000 + (0xD800 + (c.toNat - 0x10000) / 0x400 - 0xD800) * 0x400 +
          (0xDC00 + (c.toNat - 0x10000) % 0x400 - 0xDC00) = c.toNat := by
        omega
      rw [hcomb, Char.ofNat_toNat]
  · push_neg at h8
    have hesc : jsonEscapeChar c = [c] := by
      simp [jsonEscapeChar, h1, h2, h3, h4, h5, h6, h7]
      omega
    rw [hesc]
    simp only [List.cons_append, List.nil_append]
    simp [unescapeHead, h1, h2]
    omega

theorem jsonEscapeChar_head (c : Char) :
    ∃ c0 t, jsonEscapeChar c = c0 :: t ∧ c0 ≠ '"' := by
  unfold jsonEscapeChar
  split_ifs with h1 h2 h3 h4 h5 h6 h7 h8 h9 <;>
    first
      | exact ⟨'\\', _, rfl, by decide⟩
      | exact ⟨c, [], rfl, h1⟩

theorem jsonEscapeChar_length_pos (c : Char) : 1 ≤ (jsonEscapeChar c).length := by
  unfold jsonEscapeChar
  split_ifs <;> simp

theorem flatten_esc_length (s : List Char) :
    s.length ≤ (List.flatten (s.map jsonEscapeChar)).length := by
  induction s with
  | nil => simp
  | cons c cs ih =>
    have := jsonEscapeChar_length_pos c
    simp only [List.map_cons, List.flatten_cons, List.length_append, List.length_cons]
    omega

theorem parseStringBody_encode (s : List Char) : ∀ (fuel : Nat) (rest : List Char),
    s.length + 1 ≤ fuel →
    parseStringBody fuel (List.flatten (s.map jsonEscapeChar) ++ '"' :: rest) =
      some (s, rest) := by
  induction s with
  | nil =>
    intro fuel rest hfuel
    obtain ⟨f, rfl⟩ : ∃ f, fuel = f + 1 := ⟨fuel - 1, by omega⟩
    rfl
  | cons c cs ih =>
    intro fuel rest hfuel
    obtain ⟨f, rfl⟩ : ∃ f, fuel = f + 1 := ⟨fuel - 1, by omega⟩
    obtain ⟨c0, t, hesc, hne⟩ := jsonEscapeChar_head c
    have hx : List.flatten ((c :: cs).map jsonEscapeChar) ++ '"' :: rest =
        c0 :: (t ++ (List.flatten (cs.map jsonEscapeChar) ++ '"' :: rest)) := by
      simp [hesc]
    rw [hx, parseStringBody, if_neg hne]
    have hu : unescapeHead
        (c0 :: (t ++ (List.flatten (cs.map jsonEscapeChar) ++ '"' :: rest))) =
        some (c, List.flatten (cs.map jsonEscapeChar) ++ '"' :: rest) := by
      rw [show c0 :: (t ++ (List.flatten (cs.map jsonEscapeChar) ++ '"' :: rest)) =
          jsonEscapeChar c ++ (List.flatten (cs.map jsonEscapeChar) ++ '"' :: rest) from by
        simp [hesc]]
      exact unescapeHead_encode c _
    rw [hu]
    show (parseStringBody f (List.flatten (cs.map jsonEscapeChar) ++ '"' :: rest)).map
        (fun pr => (c :: pr.1, pr.2)) = some (c :: cs, rest)
    rw [ih f rest (by simp only [List.length_cons] at hfuel; omega)]
    rfl

theorem parseJsonString_encode (s : String) (rest : List Char) :
    parseJsonString (List.flatten (s.data.map jsonEscapeChar) ++ '"' :: rest) =
      some (s.data, rest) := by
  unfold parseJsonString
  apply parseStringBody_encode
  have := flatten_esc_length s.data
  simp only [List.length_append, List.length_cons]
  omega

/-! ### Round trip of the structured-record encoding: numbers -/

theorem isDigitChar_ofNat (k : Nat) (h : k < 10) :
    isDigitChar (Char.ofNat (48 + k)) = true := by
  interval_cases k <;> decide

theorem toNat_ofNat_digit (k : Nat) (h : k < 10) :
    (Char.ofNat (48 + k)).toNat = 48 + k := by
  interval_cases k <;> decide

theorem natToDigits_digits (n : Nat) : ∀ c ∈ natToDigits n, isDigitChar c = true := by
  induction n using Nat.strong_induction_on with
  | _ n ih =>
    cases n with
    | zero => intro c hc; simp [natToDigits] at hc
    | succ m =>
      intro c hc
      rw [natToDigits] at hc
      rcases List.mem_append.mp hc with h | h
      · exact ih ((m + 1) / 10) (Nat.div_lt_self (by omega) (by omega)) c h
      · have hc2 : c = Char.ofNat (48 + (m + 1) % 10) := by simpa using h
        subst hc2
        exact isDigitChar_ofNat _ (Nat.mod_lt _ (by omega))

theorem foldl_digits_natToDigits (n : Nat) : ∀ acc : Nat,
    (natToDigits n).foldl (fun a c => a * 10 + (c.toNat - 48)) acc =
      acc * 10 ^ (natToDigits n).length + n := by
  induction n using Nat.strong_induction_on with
  | _ n ih =>
    cases n with
    | zero => intro acc; simp [natToDigits]
    | succ m =>
      intro acc
      rw [natToDigits, List.foldl_append,
        ih ((m + 1) / 10) (Nat.div_lt_self (by omega) (by omega)) acc]
      simp only [List.foldl_cons, List.foldl_nil, List.length_append, List.length_cons,
        List.length_nil]
      rw [toNat_ofNat_digit _ (Nat.mod_lt _ (by omega))]
      have hqr : 10 * ((m + 1) / 10) + (m + 1) % 10 = m + 1 := Nat.div_add_mod (m + 1) 10
      have h48 : 48 + (m + 1) % 10 - 48 = (m + 1) % 10 := by omega
      rw [h48]
      calc (acc * 10 ^ (natToDigits ((m + 1) / 10)).length + (m + 1) / 10) * 10 + (m + 1) % 10
          = acc * (10 ^ (natToDigits ((m + 1) / 10)).length * 10) +
              (10 * ((m + 1) / 10) + (m + 1) % 10) := by ring
        _ = acc * 10 ^ ((natToDigits ((m + 1) / 10)).length + 0 + 1) + (m + 1) := by
              rw [hqr, pow_succ]

theorem parseDigits_append (ds : List Char) (h : ∀ c ∈ ds, isDigitChar c = true) :
    ∀ (acc : Nat) (rest : List Char),
      parseDigits acc (ds ++ rest) =
        parseDigits (ds.foldl (fun a c => a * 10 + (c.toNat - 48)) acc) rest := by
  induction ds with
  | nil => intro acc rest; rfl
  | cons c cs ih =>
    intro acc rest
    rw [List.cons_append, parseDigits, if_pos (h c (by simp))]
    rw [ih (fun x hx => h x (by simp [hx])) _ rest]
    simp [List.foldl_cons]

theorem parseDigits_stop (acc : Nat) (rest : List Char)
    (h : ∀ c cs, rest = c :: cs → isDigitChar c = false) :
    parseDigits acc rest = (acc, rest) := by
  cases rest with
  | nil => rfl
  | cons c cs => rw [parseDigits, if_neg (by simp [h c cs rfl])]

theorem natToDigits_ne_nil (n : Nat) (h : n ≠ 0) : natToDigits n ≠ [] := by
  cases n with
  | zero => exact absurd rfl h
  | succ m => rw [natToDigits]; simp

theorem natToChars_spec (n : Nat) (rest : List Char)
    (hrest : ∀ c cs, rest = c :: cs → isDigitChar c = false) :
    ∃ d ds, natToChars n = d :: ds ∧ isDigitChar d = true ∧
      parseDigits (d.toNat - 48) (ds ++ rest) = (n, rest) := by
  by_cases h0 : n = 0
  · subst h0
    refine ⟨'0', [], rfl, by decide, ?_⟩
    rw [List.nil_append, show '0'.toNat - 48 = 0 from rfl, parseDigits_stop _ _ hrest]
  · have hdig := natToDigits_digits n
    have hne := natToDigits_ne_nil n h0
    obtain ⟨d, ds, hcons⟩ : ∃ d ds, natToDigits n = d :: ds := by
      cases hmm : natToDigits n with
      | nil => exact absurd hmm hne
      | cons d ds => exact ⟨d, ds, rfl⟩
    have hnn : natToChars n = natToDigits n := by unfold natToChars; rw [if_neg h0]
    have hd : isDigitChar d = true := hdig d (by rw [hcons]; simp)
    refine ⟨d, ds, by rw [hnn, hcons], hd, ?_⟩
    rw [parseDigits_append ds (fun x hx => hdig x (by rw [hcons]; simp [hx])) _ rest,
      parseDigits_stop _ _ hrest]
    have h1 := foldl_digits_natToDigits n 0
    rw [hcons] at h1
    simp only [List.foldl_cons] at h1
    simp only [Nat.zero_mul, Nat.zero_add] at h1
    rw [h1]

theorem digit_ne_minus (d : Char) (hd : isDigitChar d = true) : ¬ d = '-' := by
  intro hdm
  subst hdm
  exact absurd hd (by decide)

theorem parseNumber_intToChars (i : Int) (rest : List Char)
    (hrest : ∀ c cs, rest = c :: cs → isDigitChar c = false) :
    parseNumber (intToChars i ++ rest) = some (i, rest) := by
  by_cases hneg : i < 0
  · have hi : intToChars i = '-' :: natToChars i.natAbs := by
      unfold intToChars; rw [if_pos hneg]
    obtain ⟨d, ds, hcons, hd, hparse⟩ := natToChars_spec i.natAbs rest hrest
    rw [hi, hcons]
    rw [show ('-' :: (d :: ds)) ++ rest = '-' :: d :: (ds ++ rest) from rfl]
    rw [parseNumber, if_pos rfl]
    show (if isDigitChar d = true then _ else none) = _
    rw [if_pos hd, hparse]
    have : -((i.natAbs : Nat) : Int) = i := by omega
    rw [this]
  · have hi : intToChars i = natToChars i.natAbs := by
      unfold intToChars; rw [if_neg hneg]
    obtain ⟨d, ds, hcons, hd, hparse⟩ := natToChars_spec i.natAbs rest hrest
    rw [hi, hcons, List.cons_append, parseNumber.eq_def]
    simp only []
    rw [if_neg (digit_ne_minus d hd), if_pos hd, hparse]
    have : ((i.natAbs : Nat) : Int) = i := by omega
    rw [this]

/-! ### Round trip of the structured-record encoding: whitespace and values -/

theorem skipWs_cons_true (c : Char) (h : isJsonWs c = true) (l : List Char) :
    skipWs (c :: l) = skipWs l := by
  rw [skipWs, if_pos h]

theorem skipWs_cons_false (c : Char) (l : List Char) (h : isJsonWs c = false) :
    skipWs (c :: l) = c :: l := by
  rw [skipWs, if_neg (by simp [h])]

theorem skipWs_indent (k : Nat) (l : List Char) : skipWs (jsonIndent k ++ l) = skipWs l := by
  induction k with
  | zero => rfl
  | succ m ih =>
    rw [show jsonIndent (m + 1) ++ l = ' ' :: (jsonIndent m ++ l) from by
      simp [jsonIndent, List.replicate_succ]]
    rw [skipWs_cons_true ' ' (by decide), ih]

theorem skipWs_idem (l : List Char) : skipWs (skipWs l) = skipWs l := by
  induction l with
  | nil => rfl
  | cons c cs ih =>
    by_cases h : isJsonWs c = true
    · rw [skipWs_cons_true c h, ih]
    · have h2 : isJsonWs c = false := by simpa using h
      rw [skipWs_cons_false c cs h2, skipWs_cons_false c cs h2]

theorem parseValue_skipWs (fuel : Nat) (l : List Char) :
    parseValue fuel (skipWs l) = parseValue fuel l := by
  cases fuel with
  | zero => rfl
  | succ f =>
    simp only [parseValue]
    rw [skipWs_idem]

theorem parseValue_cons_ws (c : Char) (h : isJsonWs c = true) (fuel : Nat) (l : List Char) :
    parseValue fuel (c :: l) = parseValue fuel l := by
  cases fuel with
  | zero => rfl
  | succ f =>
    simp only [parseValue]
    rw [skipWs_cons_true c h]

theorem parseValue_indent (k : Nat) (fuel : Nat) (l : List Char) :
    parseValue fuel (jsonIndent k ++ l) = parseValue fuel l := by
  cases fuel with
  | zero => rfl
  | succ f =>
    simp only [parseValue]
    rw [skipWs_indent]

theorem parseElems_cons_ws (c : Char) (h : isJsonWs c = true) (fuel : Nat)
    (l : List Char) (acc : List Json) :
    parseElems fuel (c :: l) acc = parseElems fuel l acc := by
  cases fuel with
  | zero => rfl
  | succ f =>
    simp only [parseElems]
    rw [parseValue_cons_ws c h]

theorem parseElems_indent (k : Nat) (fuel : Nat) (l : List Char) (acc : List Json) :
    parseElems fuel (jsonIndent k ++ l) acc = parseElems fuel l acc := by
  cases fuel with
  | zero => rfl
  | succ f =>
    simp only [parseElems]
    rw [parseValue_indent]

theorem parseMembers_cons_ws (c : Char) (h : isJsonWs c = true) (fuel : Nat)
    (l : List Char) (acc : List (String × Json)) :
    parseMembers fuel (c :: l) acc = parseMembers fuel l acc := by
  cases fuel with
  | zero => rfl
  | succ f =>
    simp only [parseMembers]
    rw [skipWs_cons_true c h]

theorem parseMembers_indent (k : Nat) (fuel : Nat) (l : List Char)
    (acc : List (String × Json)) :
    parseMembers fuel (jsonIndent k ++ l) acc = parseMembers fuel l acc := by
  cases fuel with
  | zero => rfl
  | succ f =>
    simp only [parseMembers]
    rw [skipWs_indent]

theorem parseValue_string_encode (fuel : Nat) (s : String) (rest : List Char) :
    parseValue (fuel + 1) (jsonEscapeString s ++ rest) = some (.jstr s, rest) := by
  have hx : jsonEscapeString s ++ rest =
      '"' :: (List.flatten (s.data.map jsonEscapeChar) ++ '"' :: rest) := by
    simp [jsonEscapeString]
  rw [hx]
  show (parseJsonString (List.flatten (s.data.map jsonEscapeChar) ++ '"' :: rest)).map
      (fun pr => (Json.jstr (String.mk pr.1), pr.2)) = some (.jstr s, rest)
  rw [parseJsonString_encode s rest]
  rfl

theorem digit_toNat_bounds (d : Char) (hd : isDigitChar d = true) :
    48 ≤ d.toNat ∧ d.toNat ≤ 57 := by
  simp only [isDigitChar, Bool.and_eq_true, decide_eq_true_eq] at hd
  obtain ⟨h1, h2⟩ := hd
  constructor
  · simpa [Char.toNat, Char.le_def, UInt32.le_def, BitVec.le_def] using h1
  · simpa [Char.toNat, Char.le_def, UInt32.le_def, BitVec.le_def] using h2

theorem digitChar_facts (d : Char) (hd : isDigitChar d = true) :
    isJsonWs d = false ∧ ¬ d = 'n' ∧ ¬ d = 't' ∧ ¬ d = 'f' ∧ ¬ d = '"' ∧
      ¬ d = '[' ∧ ¬ d = '\x7b' := by
  have hb := digit_toNat_bounds d hd
  refine ⟨?_, ?_, ?_, ?_, ?_, ?_, ?_⟩
  · have h1 : ¬ d = ' ' := fun h => by subst h; exact absurd hb (by decide)
    have h2 : ¬ d = '\t' := fun h => by subst h; exact absurd hb (by decide)
    have h3 : ¬ d = '\n' := fun h => by subst h; exact absurd hb (by decide)
    have h4 : ¬ d = '\r' := fun h => by subst h; exact absurd hb (by decide)
    simp [isJsonWs, h1, h2, h3, h4]
  all_goals exact fun h => by subst h; exact absurd hb (by decide)

theorem parseValue_int_encode (fuel : Nat) (i : Int) (rest : List Char)
    (hrest : ∀ c cs, rest = c :: cs → isDigitChar c = false) :
    parseValue (fuel + 1) (intToChars i ++ rest) = some (.jint i, rest) := by
  by_cases hneg : i < 0
  · have hi : intToChars i ++ rest = '-' :: (natToChars i.natAbs ++ rest) := by
      unfold intToChars
      rw [if_pos hneg, List.cons_append]
    rw [hi]
    show (parseNumber ('-' :: (natToChars i.natAbs ++ rest))).map
        (fun pr => (Json.jint pr.1, pr.2)) = some (.jint i, rest)
    rw [show '-' :: (natToChars i.natAbs ++ rest) = intToChars i ++ rest from hi.symm]
    rw [parseNumber_intToChars i rest hrest]
    rfl
  · obtain ⟨d, ds, hcons, hd, _⟩ := natToChars_spec i.natAbs rest hrest
    have hi : intToChars i ++ rest = d :: (ds ++ rest) := by
      unfold intToChars
      rw [if_neg hneg, hcons, List.cons_append]
    obtain ⟨hws, hn, ht, hf, hq, hbrk, hbrc⟩ := digitChar_facts d hd
    rw [hi]
    simp only [parseValue]
    rw [skipWs_cons_false d _ hws]
    simp only []
    rw [if_neg hn, if_neg ht, if_neg hf, if_neg hq, if_neg hbrk, if_neg hbrc]
    rw [show d :: (ds ++ rest) = intToChars i ++ rest from hi.symm]
    rw [parseNumber_intToChars i rest hrest]
    rfl

/-! ### Round trip of the structured-record encoding: arrays and objects -/

theorem parseElems_skipWs (fuel : Nat) (l : List Char) (acc : List Json) :
    parseElems fuel (skipWs l) acc = parseElems fuel l acc := by
  cases fuel with
  | zero => rfl
  | succ f =>
    simp only [parseElems]
    rw [parseValue_skipWs]

theorem parseMembers_skipWs (fuel : Nat) (l : List Char) (acc : List (String × Json)) :
    parseMembers fuel (skipWs l) acc = parseMembers fuel l acc := by
  cases fuel with
  | zero => rfl
  | succ f =>
    simp only [parseMembers]
    rw [skipWs_idem]

theorem headNotDigit_of_comma (X : List Char) :
    ∀ c cs, (',' :: X) = c :: cs → isDigitChar c = false := by
  intro c cs h
  injection h with h1 _
  subst h1
  decide

theorem parseElems_names (names : List String) : ∀ (fuel : Nat) (acc : List Json)
    (rest : List Char), names ≠ [] → names.length + 1 ≤ fuel →
    parseElems fuel
      (joinSep [',', '\n'] (names.map fun n => jsonIndent 12 ++ jsonEscapeString n) ++
        '\n' :: (jsonIndent 8 ++ ']' :: rest)) acc =
      some (.jarr (acc ++ names.map Json.jstr), rest) := by
  induction names with
  | nil => intro _ _ _ h _; exact absurd rfl h
  | cons n more ih =>
    intro fuel acc rest _ hfuel
    obtain ⟨f, rfl⟩ : ∃ f, fuel = f + 1 := ⟨fuel - 1, by omega⟩
    obtain ⟨g, rfl⟩ : ∃ g, f = g + 1 := by
      refine ⟨f - 1, ?_⟩
      simp only [List.length_cons] at hfuel
      omega
    cases more with
    | nil =>
      simp only [List.map_cons, List.map_nil, joinSep]
      rw [parseElems]
      rw [List.append_assoc, parseValue_indent,
        parseValue_string_encode g n ('\n' :: (jsonIndent 8 ++ ']' :: rest))]
      simp only []
      rw [skipWs_cons_true '\n' (by decide) , skipWs_indent,
        skipWs_cons_false ']' _ (by decide)]
      simp only []
      simp
    | cons m more2 =>
      simp only [List.map_cons, joinSep]
      rw [parseElems]
      simp only [List.append_assoc, List.cons_append, List.nil_append]
      rw [parseValue_indent, parseValue_string_encode g n]
      simp only []
      rw [skipWs_cons_false ',' _ (by decide)]
      simp only []
      rw [if_pos trivial]
      rw [parseElems_cons_ws '\n' (by decide)]
      have hmore : (m :: more2) ≠ [] := by simp
      have hg : (m :: more2).length + 1 ≤ g + 1 := by
        simp only [List.length_cons] at hfuel ⊢
        omega
      simp only [List.map_cons] at ih
      rw [ih (g + 1) (acc ++ [Json.jstr n]) rest hmore hg]
      simp [List.append_assoc]

theorem joinSep_cons (sep x : List Char) (xs : List (List Char)) :
    ∃ t, joinSep sep (x :: xs) = x ++ t := by
  cases xs with
  | nil => exact ⟨[], by simp [joinSep]⟩
  | cons y ys => exact ⟨sep ++ joinSep sep (y :: ys), by rw [joinSep, List.append_assoc]⟩

theorem skipWs_names_input (names : List String) (h : names ≠ []) (X : List Char) :
    ∃ t, skipWs (joinSep [',', '\n']
      (names.map fun s => jsonIndent 12 ++ jsonEscapeString s) ++ X) = '"' :: t := by
  obtain ⟨x1, xs, rfl⟩ : ∃ x1 xs, names = x1 :: xs := by
    cases names with
    | nil => exact absurd rfl h
    | cons a as => exact ⟨a, as, rfl⟩
  obtain ⟨t, ht⟩ := joinSep_cons [',', '\n'] (jsonIndent 12 ++ jsonEscapeString x1)
    (xs.map fun s => jsonIndent 12 ++ jsonEscapeString s)
  rw [List.map_cons, ht, List.append_assoc, List.append_assoc, skipWs_indent]
  refine ⟨List.flatten (x1.data.map jsonEscapeChar) ++ ('"' :: (t ++ X)), ?_⟩
  rw [show jsonEscapeString x1 ++ (t ++ X) =
      '"' :: (List.flatten (x1.data.map jsonEscapeChar) ++ ('"' :: (t ++ X))) from by
    simp [jsonEscapeString]]
  rw [skipWs_cons_false '"' _ (by decide)]

theorem parseValue_names (names : List String) (fuel : Nat) (rest : List Char)
    (hfuel : names.length + 2 ≤ fuel) :
    parseValue fuel (dumpNames names ++ rest) = some (.jarr (names.map Json.jstr), rest) := by
  obtain ⟨f, rfl⟩ : ∃ f, fuel = f + 1 := ⟨fuel - 1, by omega⟩
  cases names with
  | nil => rfl
  | cons n more =>
    have hx : dumpNames (n :: more) ++ rest =
        '[' :: '\n' :: (joinSep [',', '\n']
          ((n :: more).map fun s => jsonIndent 12 ++ jsonEscapeString s) ++
          '\n' :: (jsonIndent 8 ++ ']' :: rest)) := by
      simp [dumpNames]
    rw [hx, parseValue]
    rw [skipWs_cons_false '[' _ (by decide)]
    simp only []
    rw [skipWs_cons_true '\n' (by decide)]
    obtain ⟨t, ht⟩ := skipWs_names_input (n :: more) (by simp)
      ('\n' :: (jsonIndent 8 ++ ']' :: rest))
    rw [ht]
    simp only []
    rw [← ht, parseElems_skipWs]
    rw [if_neg (by decide), if_neg (by decide), if_neg (by decide), if_neg (by decide),
      if_pos trivial, if_neg (by decide)]
    rw [parseElems_names (n :: more) f [] rest (by simp)
      (by simp only [List.length_cons] at hfuel ⊢; omega)]
    simp

theorem jsonEscapeString_cons (s : String) (T : List Char) :
    jsonEscapeString s ++ T = '"' :: (List.flatten (s.data.map jsonEscapeChar) ++ '"' :: T) := by
  simp [jsonEscapeString]

theorem parseMembers_step (f : Nat) (key : String) (X Y : List Char) (v : Json)
    (acc : List (String × Json)) (hv : parseValue f X = some (v, Y)) :
    parseMembers (f + 1) (jsonEscapeString key ++ (':' :: ' ' :: X)) acc =
      match skipWs Y with
      | [] => none
      | c3 :: r4 =>
        if c3 = ',' then parseMembers f r4 (acc ++ [(key, v)])
        else if c3 = '\x7d' then some (.jobj (acc ++ [(key, v)]), r4)
        else none := by
  rw [parseMembers, jsonEscapeString_cons key (':' :: ' ' :: X),
    skipWs_cons_false '"' _ (by decide)]
  simp only []
  rw [if_pos trivial, parseJsonString_encode key (':' :: ' ' :: X)]
  simp only []
  rw [skipWs_cons_false ':' _ (by decide)]
  simp only []
  rw [if_pos trivial, parseValue_cons_ws ' ' (by decide), hv]

theorem parseValue_room (room : Room) (fuel : Nat) (rest : List Char)
    (hfuel : roomFuel room ≤ fuel) :
    parseValue fuel (dumpRoom room ++ rest) = some (roomToJson room, rest) := by
  have hb : 6 ≤ roomFuel room := Nat.le_add_right 6 _
  obtain ⟨f0, rfl⟩ : ∃ f0, fuel = f0 + 1 := ⟨fuel - 1, by omega⟩
  obtain ⟨f1, rfl⟩ : ∃ f1, f0 = f1 + 1 := ⟨f0 - 1, by omega⟩
  obtain ⟨f2, rfl⟩ : ∃ f2, f1 = f2 + 1 := ⟨f1 - 1, by omega⟩
  obtain ⟨f3, rfl⟩ : ∃ f3, f2 = f3 + 1 := ⟨f2 - 1, by omega⟩
  cases hst : room.students with
  | none =>
    have hx : dumpRoom room ++ rest =
        '\x7b' :: '\n' :: (jsonIndent 8 ++ (jsonEscapeString "id" ++ (':' :: ' ' ::
          (intToChars room.id ++ (',' :: '\n' :: (jsonIndent 8 ++ (jsonEscapeString "name" ++
            (':' :: ' ' :: (jsonEscapeString room.name ++
              ('\n' :: (jsonIndent 4 ++ ('\x7d' :: rest)))))))))))) := by
      simp [dumpRoom, hst, List.append_assoc]
    rw [hx, parseValue, skipWs_cons_false '\x7b' _ (by decide)]
    simp only []
    rw [if_neg (by decide), if_neg (by decide), if_neg (by decide), if_neg (by decide),
      if_neg (by decide), if_pos trivial]
    rw [skipWs_cons_true '\n' (by decide), skipWs_indent,
      jsonEscapeString_cons "id" _, skipWs_cons_false '"' _ (by decide)]
    simp only []
    rw [if_neg (by decide)]
    rw [← jsonEscapeString_cons "id" _]
    rw [parseMembers_step (f3 + 1 + 1) "id" _ _ (.jint room.id) []
      (parseValue_int_encode (f3 + 1) room.id _ (headNotDigit_of_comma _))]
    rw [skipWs_cons_false ',' _ (by decide)]
    simp only []
    rw [if_pos trivial]
    rw [parseMembers_cons_ws '\n' (by decide), parseMembers_indent]
    rw [parseMembers_step (f3 + 1) "name" _ _ (.jstr room.name) _
      (parseValue_string_encode f3 room.name _)]
    rw [skipWs_cons_true '\n' (by decide), skipWs_indent,
      skipWs_cons_false '\x7d' _ (by decide)]
    simp only []
    rw [if_neg (by decide), if_pos trivial]
    simp [roomToJson, hst]
  | some names =>
    have hlen : names.length + 2 ≤ f3 := by
      simp only [roomFuel, hst] at hfuel
      omega
    have hx : dumpRoom room ++ rest =
        '\x7b' :: '\n' :: (jsonIndent 8 ++ (jsonEscapeString "id" ++ (':' :: ' ' ::
          (intToChars room.id ++ (',' :: '\n' :: (jsonIndent 8 ++ (jsonEscapeString "name" ++
            (':' :: ' ' :: (jsonEscapeString room.name ++ (',' :: '\n' ::
              (jsonIndent 8 ++ (jsonEscapeString "students" ++ (':' :: ' ' ::
                (dumpNames names ++ ('\n' :: (jsonIndent 4 ++
                  ('\x7d' :: rest))))))))))))))))) := by
      simp [dumpRoom, hst, List.append_assoc]
    rw [hx, parseValue, skipWs_cons_false '\x7b' _ (by decide)]
    simp only []
    rw [if_neg (by decide), if_neg (by decide), if_neg (by decide), if_neg (by decide),
      if_neg (by decide), if_pos trivial]
    rw [skipWs_cons_true '\n' (by decide), skipWs_indent,
      jsonEscapeString_cons "id" _, skipWs_cons_false '"' _ (by decide)]
    simp only []
    rw [if_neg (by decide)]
    rw [← jsonEscapeString_cons "id" _]
    rw [parseMembers_step (f3 + 1 + 1) "id" _ _ (.jint room.id) []
      (parseValue_int_encode (f3 + 1) room.id _ (headNotDigit_of_comma _))]
    rw [skipWs_cons_false ',' _ (by decide)]
    simp only []
    rw [if_pos trivial]
    rw [parseMembers_cons_ws '\n' (by decide), parseMembers_indent]
    rw [parseMembers_step (f3 + 1) "name" _ _ (.jstr room.name) _
      (parseValue_string_encode f3 room.name _)]
    rw [skipWs_cons_false ',' _ (by decide)]
    simp only []
    rw [if_pos trivial]
    rw [parseMembers_cons_ws '\n' (by decide), parseMembers_indent]
    rw [parseMembers_step f3 "students" _ _ (.jarr (names.map Json.jstr)) _
      (parseValue_names names f3 _ hlen)]
    rw [skipWs_cons_true '\n' (by decide), skipWs_indent,
      skipWs_cons_false '\x7d' _ (by decide)]
    simp only []
    rw [if_neg (by decide), if_pos trivial]
    simp [roomToJson, hst]

theorem roomsFuel_cons (r : Room) (more : List Room) :
    roomsFuel (r :: more) = roomFuel r + 1 + roomsFuel more := rfl

theorem skipWs_rooms_input (data : List Room) (h : data ≠ []) (X : List Char) :
    ∃ t, skipWs (joinSep [',', '\n']
      (data.map fun r => jsonIndent 4 ++ dumpRoom r) ++ X) = '\x7b' :: t := by
  obtain ⟨r1, rs, rfl⟩ : ∃ r1 rs, data = r1 :: rs := by
    cases data with
    | nil => exact absurd rfl h
    | cons a as => exact ⟨a, as, rfl⟩
  obtain ⟨t, ht⟩ := joinSep_cons [',', '\n'] (jsonIndent 4 ++ dumpRoom r1)
    (rs.map fun r => jsonIndent 4 ++ dumpRoom r)
  rw [List.map_cons, ht, List.append_assoc, List.append_assoc, skipWs_indent]
  obtain ⟨u, hu⟩ : ∃ u, dumpRoom r1 = '\x7b' :: u := ⟨_, rfl⟩
  rw [hu, List.cons_append, skipWs_cons_false '\x7b' _ (by decide)]
  exact ⟨u ++ (t ++ X), rfl⟩

theorem parseElems_rooms (data : List Room) : ∀ (fuel : Nat) (acc : List Json)
    (rest : List Char), data ≠ [] → roomsFuel data ≤ fuel →
    parseElems fuel
      (joinSep [',', '\n'] (data.map fun r => jsonIndent 4 ++ dumpRoom r) ++
        '\n' :: ']' :: rest) acc =
      some (.jarr (acc ++ data.map roomToJson), rest) := by
  induction data with
  | nil => intro _ _ _ h _; exact absurd rfl h
  | cons r more ih =>
    intro fuel acc rest _ hfuel
    rw [roomsFuel_cons] at hfuel
    have hb : 6 ≤ roomFuel r := Nat.le_add_right 6 _
    obtain ⟨f, rfl⟩ : ∃ f, fuel = f + 1 := ⟨fuel - 1, by omega⟩
    cases more with
    | nil =>
      simp only [List.map_cons, List.map_nil, joinSep]
      rw [parseElems]
      rw [List.append_assoc, parseValue_indent,
        parseValue_room r f ('\n' :: ']' :: rest) (by omega)]
      simp only []
      rw [skipWs_cons_true '\n' (by decide), skipWs_cons_false ']' _ (by decide)]
      simp only []
      simp
    | cons r2 more2 =>
      simp only [List.map_cons, joinSep]
      rw [parseElems]
      simp only [List.append_assoc, List.cons_append, List.nil_append]
      rw [parseValue_indent, parseValue_room r f _ (by omega)]
      simp only []
      rw [skipWs_cons_false ',' _ (by decide)]
      simp only []
      rw [if_pos trivial]
      rw [parseElems_cons_ws '\n' (by decide)]
      simp only [List.map_cons] at ih
      rw [ih f (acc ++ [roomToJson r]) rest (by simp) (by rw [roomsFuel_cons] at hfuel ⊢; omega)]
      simp [List.append_assoc]

theorem parseValue_roomsDoc (data : List Room) (fuel : Nat) (rest : List Char)
    (hfuel : roomsFuel data + 2 ≤ fuel) :
    parseValue fuel (dumpRoomsChars data ++ rest) = some (roomsToJson data, rest) := by
  obtain ⟨f, rfl⟩ : ∃ f, fuel = f + 1 := ⟨fuel - 1, by omega⟩
  cases data with
  | nil => rfl
  | cons r more =>
    have hx : dumpRoomsChars (r :: more) ++ rest =
        '[' :: '\n' :: (joinSep [',', '\n']
          ((r :: more).map fun q => jsonIndent 4 ++ dumpRoom q) ++
          '\n' :: ']' :: rest) := by
      simp [dumpRoomsChars]
    rw [hx, parseValue]
    rw [skipWs_cons_false '[' _ (by decide)]
    simp only []
    rw [skipWs_cons_true '\n' (by decide)]
    obtain ⟨t, ht⟩ := skipWs_rooms_input (r :: more) (by simp) ('\n' :: ']' :: rest)
    rw [ht]
    simp only []
    rw [← ht, parseElems_skipWs]
    rw [if_neg (by decide), if_neg (by decide), if_neg (by decide), if_neg (by decide),
      if_pos trivial, if_neg (by decide)]
    rw [parseElems_rooms (r :: more) f [] rest (by simp) (by omega)]
    simp [roomsToJson]

/-! ### Round trip of the structured-record encoding: fuel fits in the input
length -/

theorem escString_len_ge (s : String) : 2 ≤ (jsonEscapeString s).length := by
  simp [jsonEscapeString]

theorem intToChars_len_ge (i : Int) : 1 ≤ (intToChars i).length := by
  unfold intToChars natToChars
  split_ifs with h1 h2 h3
  · simp
  · simp
  · simp
  · have := natToDigits_ne_nil i.natAbs h3
    cases hmm : natToDigits i.natAbs with
    | nil => exact absurd hmm this
    | cons c cs => simp [hmm]

theorem dumpNames_len_ge (names : List String) :
    names.length ≤ (dumpNames names).length := by
  cases names with
  | nil => simp [dumpNames]
  | cons n more =>
    have hgen : ∀ (ns : List String), ns ≠ [] →
        ns.length ≤ (joinSep [',', '\n']
          (ns.map fun s => jsonIndent 12 ++ jsonEscapeString s)).length := by
      intro ns
      induction ns with
      | nil => intro h; exact absurd rfl h
      | cons a as ihs =>
        intro _
        cases as with
        | nil =>
          have := escString_len_ge a
          simp [joinSep, jsonIndent]
        | cons b bs =>
          have h1 := ihs (by simp)
          have h2 := escString_len_ge a
          simp only [List.map_cons, joinSep] at h1 ⊢
          simp only [List.length_append, List.length_cons, List.length_nil, jsonIndent,
            List.length_replicate] at h1 ⊢
          omega
    have := hgen (n :: more) (by simp)
    simp only [dumpNames, List.length_append, List.length_cons, jsonIndent,
      List.length_replicate] at this ⊢
    omega

theorem roomFuel_le_dumpRoom (room : Room) : roomFuel room + 1 ≤ (dumpRoom room).length := by
  have h1 := escString_len_ge "id"
  have h2 := escString_len_ge "name"
  have h3 := escString_len_ge room.name
  have h4 := intToChars_len_ge room.id
  cases hst : room.students with
  | none =>
    simp only [dumpRoom, roomFuel, hst, List.length_append, List.length_cons, jsonIndent,
      List.length_replicate]
    omega
  | some names =>
    have h5 := escString_len_ge "students"
    have h6 := dumpNames_len_ge names
    simp only [dumpRoom, roomFuel, hst, List.length_append, List.length_cons, jsonIndent,
      List.length_replicate]
    omega

theorem roomsFuel_le_length (data : List Room) :
    roomsFuel data + 1 ≤ (dumpRoomsChars data).length := by
  cases data with
  | nil => simp [dumpRoomsChars, roomsFuel]
  | cons r more =>
    have hgen : ∀ (ds : List Room), ds ≠ [] →
        roomsFuel ds ≤ (joinSep [',', '\n']
          (ds.map fun q => jsonIndent 4 ++ dumpRoom q)).length := by
      intro ds
      induction ds with
      | nil => intro h; exact absurd rfl h
      | cons a as ihs =>
        intro _
        have ha := roomFuel_le_dumpRoom a
        cases as with
        | nil =>
          simp only [roomsFuel_cons, List.map_cons, List.map_nil, joinSep, roomsFuel,
            List.length_append, jsonIndent, List.length_replicate, List.foldr_cons,
            List.foldr_nil]
          omega
        | cons b bs =>
          have h1 := ihs (by simp)
          simp only [roomsFuel_cons, List.map_cons, joinSep] at h1 ⊢
          simp only [List.length_append, List.length_cons, List.length_nil, jsonIndent,
            List.length_replicate] at h1 ⊢
          omega
    have := hgen (r :: more) (by simp)
    simp only [dumpRoomsChars, List.length_append, List.length_cons, jsonIndent,
      List.length_replicate] at this ⊢
    omega

theorem jsonLoads_dump (data : List Room) :
    jsonLoads (jsonWriterOutput data) = some (roomsToJson data) := by
  have hlen := roomsFuel_le_length data
  have hparse := parseValue_roomsDoc data ((dumpRoomsChars data).length + 1) [] (by omega)
  rw [List.append_nil] at hparse
  show (match parseValue ((dumpRoomsChars data).length + 1) (dumpRoomsChars data) with
    | some (v, rest) => if skipWs rest = [] then some v else none
    | none => none) = some (roomsToJson data)
  rw [hparse]
  rfl

/-! ### Reading the parsed document back as rooms -/

theorem jsonStrList_map (names : List String) :
    jsonStrList (names.map Json.jstr) = some names := by
  induction names with
  | nil => rfl
  | cons n more ih => simp [jsonStrList, ih]

theorem jsonToRoom_encode (room : Room) : jsonToRoom (roomToJson room) = some room := by
  obtain ⟨i, nm, st⟩ := room
  cases st with
  | none => rfl
  | some names => simp [roomToJson, jsonToRoom, jsonStrList_map]

theorem jsonRoomList_encode (data : List Room) :
    jsonRoomList (data.map roomToJson) = some data := by
  induction data with
  | nil => rfl
  | cons r more ih => simp [jsonRoomList, jsonToRoom_encode, ih]

theorem jsonToRooms_encode (data : List Room) :
    jsonToRooms (roomsToJson data) = some data := by
  simp [jsonToRooms, roomsToJson, jsonRoomList_encode]

/-! ### Claim theorems: structured-record writer and reader -/

/-- C9: writing any room sequence with the structured-record writer
(`json.dump(data, file, indent=4)`) and parsing the written document back
with the JSON reader (`json.load`) reproduces the same sequence — every
room's `id`, `name`, and `students` list (present or absent) comes back
identical, in the same order. -/
theorem C9_json_roundtrip (data : List Room) :
    (jsonLoads (jsonWriterOutput data)).bind jsonToRooms = some data := by
  rw [jsonLoads_dump]
  simp [jsonToRooms_encode]

/-- C7: a room whose `students` key is absent and that no student's
reference resolves to keeps the key absent after a successful
`assign_students` (nothing is materialised, in particular never a null);
and both Sink Writers serialise such a room consistently — the dictionary
the JSON writer dumps has exactly the members `id` and `name` (no
`students` member), and the XML `room` element's children carry no
`students` tag. -/
theorem C7_zero_students_no_field :
    (∀ (rooms : List Room) (students : List Student) (res : List Room)
        (p : Nat) (hp : p < rooms.length) (hp' : p < res.length),
        assignStudents rooms students = .ok res →
        (rooms.get ⟨p, hp⟩).students = none →
        (∀ s ∈ students, pyListIndex rooms.length s.room ≠ some p) →
        (res.get ⟨p, hp'⟩).students = none)
    ∧ (∀ room : Room, room.students = none →
        roomToJson room = .jobj [("id", .jint room.id), ("name", .jstr room.name)])
    ∧ (∀ room : Room, room.students = none →
        ∀ x ∈ roomChildren room, x.tag ≠ "students") := by
  refine ⟨?_, ?_, ?_⟩
  · intro rooms students res p hp hp' h hnone hnot
    have hv : ∀ s ∈ students, (pyListIndex rooms.length s.room).isSome := by
      intro s hs
      by_contra hns
      obtain ⟨e, he⟩ := (assignStudents_error_iff students rooms).mpr
        ⟨s, hs, Option.not_isSome_iff_eq_none.mp hns⟩
      rw [h] at he
      exact Except.noConfusion he
    obtain ⟨res2, hok, hlen, hget⟩ := assignStudents_ok_spec students rooms hv
    rw [h] at hok
    obtain rfl : res = res2 := by injection hok
    rw [hget p hp hp']
    have hfil : students.filter (fun s => pyListIndex rooms.length s.room == some p) = [] := by
      rw [List.filter_eq_nil_iff]
      intro a ha
      simp [hnot a ha]
    have hnames : namesFor rooms.length students p = [] := by
      simp [namesFor, hfil]
    rw [hnames]
    exact hnone
  · intro room h
    simp [roomToJson, h]
  · intro room h x hx
    simp [roomChildren, h] at hx
    rcases hx with rfl | rfl <;> simp

/-- C7 witness: assigning Bob to Room B leaves Room A without a `students`
key. -/
theorem C7_witness :
    (([⟨0, "Room A", none⟩, ⟨1, "Room B", some ["Bob"]⟩] : List Room).get
      ⟨0, by decide⟩).students = none :=
  C7_zero_students_no_field.1 scenarioARooms [⟨1, "Bob", 1⟩]
    [⟨0, "Room A", none⟩, ⟨1, "Room B", some ["Bob"]⟩] 0 (by decide) (by decide)
    rfl rfl (by decide)
